import Mathlib

/-!
A verification development for the `dirs` file server (`main.go`).

The server answers every HTTP request through `handleFileServer`, which maps
the URL path to a local path, refuses the server's own executable, lists a
directory through `renderDirList` or streams a regular file.  `getLocalIP`
picks the address printed at start-up.

Modelling decisions.

* A Go `string` is a sequence of bytes: `GoString` is `List Nat`, one number
  per byte.  None of the functions below inspects a byte except to compare it
  with another one, so nothing depends on the bound 256.
* `path/filepath` is modelled for the platforms whose separator is `/`
  (`filepath.Separator = '/'`, no volume names).
* The operating system (`os.Executable`, `os.Stat`, `os.Open`, `Readdir`,
  `io.Copy`), the time formatter and the parsed HTML template are the fields
  of `Env`; the handler is a function of the environment and the request.
* `http.ResponseWriter` is an explicit state (`ResponseWriter`) threaded
  through the handler.
-/

namespace Dirs

/-! ## Strings -/

/-- Go strings are byte sequences. -/
abbrev GoString := List Nat

/-- Byte `/`. -/
def slash : Nat := 47

/-- Byte `.`. -/
def dot : Nat := 46

/-- Byte `\`. -/
def backslash : Nat := 92

/-- UTF-8 encoding of one code point, as the Go compiler stores the runes of a
string literal. -/
def utf8EncodeRune (c : Nat) : List Nat :=
  if c ≤ 0x7f then [c]
  else if c ≤ 0x7ff then [0xC0 + c / 64, 0x80 + c % 64]
  else if c ≤ 0xffff then [0xE0 + c / 4096, 0x80 + (c / 64) % 64, 0x80 + c % 64]
  else [0xF0 + c / 262144, 0x80 + (c / 4096) % 64, 0x80 + (c / 64) % 64, 0x80 + c % 64]

/-- Bytes of a string literal of the source. -/
def goStr (s : String) : GoString :=
  s.toList.flatMap (fun c => utf8EncodeRune c.toNat)

/-- Go's `<` on strings: byte-wise lexicographic comparison, a proper initial
segment being smaller. -/
def strLess : GoString → GoString → Bool
  | _, [] => false
  | [], _ :: _ => true
  | a :: as, b :: bs => if a < b then true else if b < a then false else strLess as bs

/-- Function `strings.HasPrefix`: `len(s) >= len(p) && s[:len(p)] == p`. -/
def HasPrefix (s p : GoString) : Bool :=
  decide (s.length ≥ p.length) && decide (s.take p.length = p)

/-- Function `strings.Replace(s, old, new, -1)` for one-byte `old` and `new`:
every occurrence of the byte is replaced. -/
def ReplaceByte (s : GoString) (old new : Nat) : GoString :=
  s.map (fun b => if b = old then new else b)

/-! ## `path/filepath` with separator `/` -/

/-- The backtracking of `Clean` at a `..` element: `w` is decremented once and
then as long as `w > dotdot` and `buf[w]` is not a separator.  The argument is
the value of `w` after the first decrement; the result is the final `w`. -/
def backtrackIndex (buf : GoString) (dotdot : Nat) : Nat → Nat
  | 0 => 0
  | w + 1 =>
    if w + 1 > dotdot ∧ buf.getD (w + 1) 0 ≠ slash then backtrackIndex buf dotdot w
    else w + 1

/-- The output buffer of `Clean` after backtracking over its last element. -/
def backtrack (out : GoString) (dotdot : Nat) : GoString :=
  out.take (backtrackIndex out dotdot (out.length - 1))

/-- The main loop of `filepath.Clean`.  `rest` is `path[r:]`, `out` the bytes
written so far (`out.length` is `w`), `dotdot` the index where `..` must stop.
Every iteration consumes at least one byte of `rest`, so `rest.length`
iterations are enough; the first argument bounds the number of iterations. -/
def cleanLoop (rooted : Bool) : Nat → GoString → GoString → Nat → GoString
  | 0, _, out, _ => out
  | _ + 1, [], out, _ => out
  | fuel + 1, c :: rest, out, dotdot =>
    if c = slash then
      -- empty path element
      cleanLoop rooted fuel rest out dotdot
    else if c = dot ∧ (rest = [] ∨ rest.head? = some slash) then
      -- . element
      cleanLoop rooted fuel rest out dotdot
    else if c = dot ∧ rest.head? = some dot ∧
        (rest.tail = [] ∨ rest.tail.head? = some slash) then
      -- .. element: remove to last separator
      if out.length > dotdot then
        cleanLoop rooted fuel rest.tail (backtrack out dotdot) dotdot
      else if rooted = false then
        let out1 := if out.length > 0 then out ++ [slash] else out
        let out2 := out1 ++ [dot, dot]
        cleanLoop rooted fuel rest.tail out2 out2.length
      else
        cleanLoop rooted fuel rest.tail out dotdot
    else
      -- real path element: add slash if needed, copy element
      let out1 :=
        if (rooted = true ∧ out.length ≠ 1) ∨ (rooted = false ∧ out.length ≠ 0)
        then out ++ [slash] else out
      cleanLoop rooted fuel ((c :: rest).dropWhile (fun b => b ≠ slash))
        (out1 ++ (c :: rest).takeWhile (fun b => b ≠ slash)) dotdot

/-- Function `filepath.Clean`. -/
def Clean (path : GoString) : GoString :=
  if path = [] then [dot]
  else
    let rooted : Bool := path.head? = some slash
    let out :=
      if rooted then cleanLoop rooted path.length path.tail [slash] 1
      else cleanLoop rooted path.length path [] 0
    if out.length = 0 then [dot] else out

/-- Function `filepath.Base`: the last element of the path, trailing
separators removed; `.` for the empty path, `/` for a path of separators. -/
def Base (path : GoString) : GoString :=
  if path = [] then [dot]
  else
    let stripped := (path.reverse.dropWhile (fun b => b = slash)).reverse
    let last := (stripped.reverse.takeWhile (fun b => b ≠ slash)).reverse
    if last = [] then [slash] else last

/-- Function `strings.Join`. -/
def stringsJoin : List GoString → GoString → GoString
  | [], _ => []
  | [e], _ => e
  | e :: es, sep => e ++ sep ++ stringsJoin es sep

/-- Function `filepath.Join`: the elements from the first non-empty one on are
joined with the separator and the result is cleaned. -/
def Join : List GoString → GoString
  | [] => []
  | e :: es => if e ≠ [] then Clean (stringsJoin (e :: es) [slash]) else Join es

/-- A name a directory entry can carry: non-empty, without separator, and
neither `.` nor `..`. -/
def IsFileName (name : GoString) : Prop :=
  name ≠ [] ∧ slash ∉ name ∧ name ≠ [dot] ∧ name ≠ [dot, dot]

instance (name : GoString) : Decidable (IsFileName name) := by
  unfold IsFileName; infer_instance

/-! ## The operating system and the HTTP response -/

/-- The part of `os.FileInfo` the server reads. -/
structure OsFileInfo where
  /-- Result of `Name()`. -/
  name : GoString
  /-- Result of `Size()`. -/
  size : Int
  /-- Result of `ModTime()`, as seconds. -/
  modTime : Nat
  /-- Result of `IsDir()`. -/
  isDir : Bool
  deriving DecidableEq

/-- An opened `*os.File`. -/
structure OsFile where
  /-- The bytes of the file. -/
  content : GoString
  /-- With `some k`, copying the file fails after `k` bytes. -/
  failAfter : Option Nat
  /-- Result of `Readdir(-1)`; `none` when it returns an error. -/
  entries : Option (List OsFileInfo)

/-- Struct `FileInfo` of `main.go`: one row of a listing. -/
structure FileInfo where
  /-- Field `Name`. -/
  Name : GoString
  /-- Field `Size`. -/
  Size : Int
  /-- Field `ModTime`. -/
  ModTime : GoString
  /-- Field `IsDir`. -/
  IsDir : Bool
  /-- Field `Path`. -/
  Path : GoString
  deriving DecidableEq

/-- What the handler reads from its surroundings. -/
structure Env where
  /-- Path returned by `os.Executable()`; the handler drops the error. -/
  executable : GoString
  /-- Function `os.Stat`; `none` when it returns an error. -/
  stat : GoString → Option OsFileInfo
  /-- Function `os.Open`; `none` when it returns an error. -/
  openFile : GoString → Option OsFile
  /-- Method `Time.Format` with layout `2006-01-02 15:04:05`. -/
  formatTime : Nat → GoString
  /-- Parsed `dirListTemplate`, `none` on a parse error: executed on the URL
  path and the rows it gives the bytes written and whether it failed. -/
  template : Option (GoString → List FileInfo → GoString × Bool)

/-- State of an `http.ResponseWriter`. -/
structure ResponseWriter where
  /-- The header map returned by `Header()`. -/
  header : List (String × GoString)
  /-- The status code, once the header has been written. -/
  status : Option Nat
  /-- The headers as they were when the header was written. -/
  sent : List (String × GoString)
  /-- The bytes written to the body. -/
  body : GoString
  deriving DecidableEq

/-- The response a client receives. -/
structure Response where
  /-- The status code. -/
  status : Nat
  /-- The headers set by the handler. -/
  header : List (String × GoString)
  /-- The body. -/
  body : GoString
  deriving DecidableEq

/-- A fresh writer. -/
def ResponseWriter.new : ResponseWriter :=
  { header := [], status := none, sent := [], body := [] }

/-- Method `Header().Set`. -/
def ResponseWriter.set (w : ResponseWriter) (k : String) (v : GoString) : ResponseWriter :=
  { w with header := (k, v) :: w.header.filter (fun p => p.1 ≠ k) }

/-- Method `Header().Del`. -/
def ResponseWriter.del (w : ResponseWriter) (k : String) : ResponseWriter :=
  { w with header := w.header.filter (fun p => p.1 ≠ k) }

/-- Method `WriteHeader`: the first call fixes status and headers. -/
def ResponseWriter.writeHeader (w : ResponseWriter) (code : Nat) : ResponseWriter :=
  match w.status with
  | some _ => w
  | none => { w with status := some code, sent := w.header }

/-- Method `Write`: writes the header with status 200 when none was written. -/
def ResponseWriter.write (w : ResponseWriter) (data : GoString) : ResponseWriter :=
  let w1 := w.writeHeader 200
  { w1 with body := w1.body ++ data }

/-- The response once the handler has returned. -/
def ResponseWriter.finish (w : ResponseWriter) : Response :=
  let w1 := w.writeHeader 200
  { status := w1.status.getD 200, header := w1.sent, body := w1.body }

/-- Status `http.StatusForbidden`. -/
def StatusForbidden : Nat := 403

/-- Status `http.StatusNotFound`. -/
def StatusNotFound : Nat := 404

/-- Status `http.StatusInternalServerError`. -/
def StatusInternalServerError : Nat := 500

/-- Function `http.Error`. -/
def httpError (w : ResponseWriter) (error : String) (code : Nat) : ResponseWriter :=
  let w1 := w.del "Content-Length"
  let w2 := w1.set "Content-Type" (goStr "text/plain; charset=utf-8")
  let w3 := w2.set "X-Content-Type-Options" (goStr "nosniff")
  let w4 := w3.writeHeader code
  w4.write (goStr error ++ goStr "\n")

/-- Function `io.Copy(w, file)`: the writer after the copy and whether the copy
failed.  Nothing is written when no byte is transferred. -/
def ioCopy (w : ResponseWriter) (file : OsFile) : ResponseWriter × Bool :=
  let data := match file.failAfter with
    | none => file.content
    | some k => file.content.take k
  (if data = [] then w else w.write data, file.failAfter.isSome)

/-! ## `main.go`: `handleFileServer` and `renderDirList` -/

/-- The row `renderDirList` builds for one entry of the directory. -/
def makeFileInfo (env : Env) (urlPath : GoString) (info : OsFileInfo) : FileInfo :=
  let filePath := Join [urlPath, info.name]
  let filePath := ReplaceByte filePath backslash slash
  { Name := info.name
    Size := info.size
    ModTime := env.formatTime info.modTime
    IsDir := info.isDir
    Path := filePath }

/-- The loop of `renderDirList` over the entries read from the directory:
hidden entries and the executable are skipped, every other entry is appended. -/
def buildFiles (env : Env) (urlPath execName : GoString) (fileInfos : List OsFileInfo) :
    List FileInfo :=
  fileInfos.foldl
    (fun files info =>
      if HasPrefix info.name (goStr ".") || decide (info.name = execName) then files
      else files ++ [makeFileInfo env urlPath info])
    []

/-- The comparison function `renderDirList` passes to `sort.Slice`. -/
def lessFiles (a b : FileInfo) : Bool :=
  if a.IsDir = true ∧ b.IsDir = false then true
  else if a.IsDir = false ∧ b.IsDir = true then false
  else strLess a.Name b.Name

/-- One pass of the inner loop of Go's `insertionSortLessFunc`: the new element
`x` is swapped towards the front of the ordered part `pre` as long as it is
less than its left neighbour. -/
def insertFromRight {α : Type} (less : α → α → Bool) (x : α) (pre : List α) : List α :=
  (pre.reverse.dropWhile (fun y => less x y)).reverse ++
    x :: (pre.reverse.takeWhile (fun y => less x y)).reverse

/-- Function `sort.Slice`.  The library orders slices of at most 12 elements by
exactly this insertion sort (`insertionSortLessFunc`) and longer ones by
pattern-defeating quicksort; `sortSlice_unique` shows that the ordered result
does not depend on the algorithm when no two elements compare as equal. -/
def sortSlice {α : Type} (less : α → α → Bool) (data : List α) : List α :=
  data.foldl (fun pre x => insertFromRight less x pre) []

/-- The rows handed to the template: built, then sorted. -/
def listFiles (env : Env) (urlPath execName : GoString) (fileInfos : List OsFileInfo) :
    List FileInfo :=
  sortSlice lessFiles (buildFiles env urlPath execName fileInfos)

/-- Function `renderDirList`. -/
def renderDirList (env : Env) (w : ResponseWriter) (localPath urlPath execName : GoString) :
    ResponseWriter :=
  match env.openFile localPath with
  | none => httpError w "无法打开目录" StatusInternalServerError
  | some dir =>
    match dir.entries with
    | none => httpError w "无法读取目录内容" StatusInternalServerError
    | some fileInfos =>
      let files := listFiles env urlPath execName fileInfos
      match env.template with
      | none => httpError w "模板解析错误" StatusInternalServerError
      | some tmpl =>
        let w1 := w.set "Content-Type" (goStr "text/html; charset=utf-8")
        let res := tmpl urlPath files
        let w2 := if res.1 = [] then w1 else w1.write res.1
        if res.2 then httpError w2 "模板执行错误" StatusInternalServerError
        else w2

/-- The local path `handleFileServer` computes from the URL path. -/
def localPathOf (urlPath : GoString) : GoString :=
  Clean (goStr "." ++ urlPath)

/-- The body of `handleFileServer` on the writer. -/
def serve (env : Env) (w : ResponseWriter) (urlPath : GoString) : ResponseWriter :=
  let localPath := localPathOf urlPath
  let execName := Base env.executable
  if Base localPath = execName then
    httpError w "无权访问此文件" StatusForbidden
  else
    match env.stat localPath with
    | none => httpError w "文件或目录不存在" StatusNotFound
    | some fileInfo =>
      if fileInfo.isDir then
        renderDirList env w localPath urlPath execName
      else
        match env.openFile localPath with
        | none => httpError w "无法打开文件" StatusInternalServerError
        | some file =>
          let w1 := w.set "Content-Disposition"
            (goStr "attachment; filename=" ++ Base localPath)
          let w2 := w1.set "Content-Type" (goStr "application/octet-stream")
          let res := ioCopy w2 file
          if res.2 then httpError res.1 "文件传输错误" StatusInternalServerError
          else res.1

/-- Function `handleFileServer`: the response to a request for `urlPath`. -/
def handleFileServer (env : Env) (urlPath : GoString) : Response :=
  (serve env ResponseWriter.new urlPath).finish

/-! ## `net` -/

/-- A value of the interface `net.Addr`, as `net.InterfaceAddrs` returns it. -/
inductive Addr where
  /-- A `*net.IPNet` with its `IP` and `Mask`. -/
  | ipNet (ip mask : List Nat)
  /-- Any other implementation, with its `Network()` and `String()`. -/
  | other (network text : GoString)
  deriving DecidableEq

/-- Function `isZeros` of package `net`. -/
def isZeros (p : List Nat) : Bool :=
  p.all (fun b => b == 0)

/-- Method `IP.To4`: the 4-byte form of an IPv4 address, `none` for `nil`. -/
def To4 (ip : List Nat) : Option (List Nat) :=
  if ip.length = 4 then some ip
  else if ip.length = 16 ∧ isZeros (ip.take 10) = true ∧ ip.getD 10 0 = 0xff ∧
      ip.getD 11 0 = 0xff then
    some (ip.drop 12)
  else none

/-- Variable `net.IPv6loopback`. -/
def IPv6loopback : List Nat :=
  [0, 0, 0, 0, 0, 0, 0, 0, 0, 0, 0, 0, 0, 0, 0, 1]

/-- Variable `v4InV6Prefix` of package `net`. -/
def v4InV6Prefix : List Nat :=
  [0, 0, 0, 0, 0, 0, 0, 0, 0, 0, 0xff, 0xff]

/-- Method `IP.Equal`. -/
def ipEqual (ip x : List Nat) : Bool :=
  if ip.length = x.length then decide (ip = x)
  else if ip.length = 4 ∧ x.length = 16 then
    decide (x.take 12 = v4InV6Prefix) && decide (ip = x.drop 12)
  else if ip.length = 16 ∧ x.length = 4 then
    decide (ip.take 12 = v4InV6Prefix) && decide (ip.drop 12 = x)
  else false

/-- Method `IP.IsLoopback`. -/
def IsLoopback (ip : List Nat) : Bool :=
  match To4 ip with
  | some ip4 => ip4.getD 0 0 == 127
  | none => ipEqual ip IPv6loopback

/-- Decimal digits of one byte. -/
def decimalByte (b : Nat) : GoString :=
  if b ≥ 100 then [48 + b / 100, 48 + b / 10 % 10, 48 + b % 10]
  else if b ≥ 10 then [48 + b / 10, 48 + b % 10]
  else [48 + b]

/-- Dotted-decimal text of a 4-byte address. -/
def dotted (p4 : List Nat) : GoString :=
  decimalByte (p4.getD 0 0) ++ [dot] ++ decimalByte (p4.getD 1 0) ++ [dot] ++
    decimalByte (p4.getD 2 0) ++ [dot] ++ decimalByte (p4.getD 3 0)

/-- Method `IP.String`: dotted decimal when the address has a 4-byte form.
The text of every other value (`<nil>`, `?` and hex digits, the IPv6
notation) is the parameter `text6`; `getLocalIP` never asks for it. -/
def IPString (text6 : List Nat → GoString) (ip : List Nat) : GoString :=
  match To4 ip with
  | some p4 => dotted p4
  | none => text6 ip

/-! ## `main.go`: `getLocalIP` -/

/-- The loop of `getLocalIP` over the interface addresses. -/
def getLocalIPLoop (text6 : List Nat → GoString) : List Addr → GoString
  | [] => goStr "localhost"
  | Addr.ipNet ip _ :: rest =>
    if IsLoopback ip = false then
      if (To4 ip).isSome then IPString text6 ip
      else getLocalIPLoop text6 rest
    else getLocalIPLoop text6 rest
  | Addr.other _ _ :: rest => getLocalIPLoop text6 rest

/-- Function `getLocalIP` on the result of `net.InterfaceAddrs()`, `none` when
that call returns an error. -/
def getLocalIP (text6 : List Nat → GoString) (addrs : Option (List Addr)) : GoString :=
  match addrs with
  | none => goStr "localhost"
  | some addrs => getLocalIPLoop text6 addrs

/-! ## Specification-side definitions -/

/-- The response `http.Error` produces on a writer nothing was written to. -/
def errorResponse (error : String) (code : Nat) : Response :=
  { status := code
    header := [("X-Content-Type-Options", goStr "nosniff"),
      ("Content-Type", goStr "text/plain; charset=utf-8")]
    body := goStr error ++ goStr "\n" }

/-- The response that streams `content` as a download named `name`. -/
def downloadResponse (name content : GoString) : Response :=
  { status := 200
    header := [("Content-Type", goStr "application/octet-stream"),
      ("Content-Disposition", goStr "attachment; filename=" ++ name)]
    body := content }

/-- A list is ordered by `less` when no element is less than an earlier one:
the result `sort.Slice` promises. -/
def Ordered {α : Type} (less : α → α → Bool) (l : List α) : Prop :=
  l.Pairwise (fun a b => less b a = false)

/-- The spec's filter of a listing: the entry is not hidden (its name does not
start with `.`) and is not named like the executable. -/
def isListed (execName : GoString) (info : OsFileInfo) : Bool :=
  !(HasPrefix info.name (goStr ".") || decide (info.name = execName))

/-- The spec's choice of address: a network address (`*net.IPNet`) that is not
a loopback address and has a 4-byte form. -/
def isLanIPv4 : Addr → Bool
  | Addr.ipNet ip _ => !IsLoopback ip && (To4 ip).isSome
  | Addr.other _ _ => false

/-- The text of an address, as `getLocalIP` prints it. -/
def addrText (text6 : List Nat → GoString) : Addr → GoString
  | Addr.ipNet ip _ => IPString text6 ip
  | Addr.other _ text => text

/-- The spec's `getLocalIP`: the text of the first non-loopback IPv4 network
address, the host-loopback name when there is none or the enumeration fails. -/
def firstLanAddress (text6 : List Nat → GoString) (addrs : Option (List Addr)) : GoString :=
  match addrs with
  | none => goStr "localhost"
  | some addrs =>
    match addrs.find? isLanIPv4 with
    | some a => addrText text6 a
    | none => goStr "localhost"

/-! ## Concrete environments -/

/-- An environment whose root directory holds the server `server.bin`, a
hidden file `.env` and `readme.txt`, all regular files. -/
def rootEnv : Env :=
  { executable := goStr "/srv/server.bin"
    stat := fun p =>
      if p = goStr "server.bin" then
        some { name := goStr "server.bin", size := 3, modTime := 0, isDir := false }
      else if p = goStr ".env" then
        some { name := goStr ".env", size := 5, modTime := 0, isDir := false }
      else if p = goStr "readme.txt" then
        some { name := goStr "readme.txt", size := 5, modTime := 0, isDir := false }
      else none
    openFile := fun p =>
      if p = goStr "server.bin" then
        some { content := goStr "ELF", failAfter := none, entries := none }
      else if p = goStr ".env" then
        some { content := goStr "KEY=1", failAfter := none, entries := none }
      else if p = goStr "readme.txt" then
        some { content := goStr "hello", failAfter := none, entries := none }
      else none
    formatTime := fun _ => []
    template := none }

/-- An environment in which the only file lies next to the served root, at
`../secret.txt` seen from the working directory. -/
def outsideEnv : Env :=
  { executable := goStr "/srv/server.bin"
    stat := fun p =>
      if p = goStr "../secret.txt" then
        some { name := goStr "secret.txt", size := 6, modTime := 0, isDir := false }
      else none
    openFile := fun p =>
      if p = goStr "../secret.txt" then
        some { content := goStr "secret", failAfter := none, entries := none }
      else none
    formatTime := fun _ => []
    template := none }

/-- An environment whose root directory holds the hidden regular file `.env`,
which `os.Stat` finds and `os.Open` refuses. -/
def lockedEnv : Env :=
  { executable := goStr "/srv/server.bin"
    stat := fun p =>
      if p = goStr ".env" then
        some { name := goStr ".env", size := 5, modTime := 0, isDir := false }
      else none
    openFile := fun _ => none
    formatTime := fun _ => []
    template := none }

/-- The directory of the spec's scenario: `docs/`, `readme.txt`, the server
`server.bin`, and a hidden directory `.git`; the file system reports 4096
bytes for a directory. -/
def scenarioDir : List OsFileInfo :=
  [ { name := goStr "readme.txt", size := 5, modTime := 1704164645, isDir := false },
    { name := goStr ".git", size := 4096, modTime := 0, isDir := true },
    { name := goStr "server.bin", size := 3, modTime := 0, isDir := false },
    { name := goStr "docs", size := 4096, modTime := 0, isDir := true } ]

/-- A directory that holds one file whose name contains a backslash. -/
def backslashDir : List OsFileInfo :=
  [ { name := goStr "a\\b", size := 1, modTime := 0, isDir := false } ]

/-- An environment whose root directory holds the server and the regular file
`a\b`, on a platform whose separator is `/`. -/
def backslashEnv : Env :=
  { executable := goStr "/srv/server.bin"
    stat := fun p =>
      if p = goStr "." then
        some { name := goStr ".", size := 4096, modTime := 0, isDir := true }
      else if p = goStr "a\\b" then
        some { name := goStr "a\\b", size := 1, modTime := 0, isDir := false }
      else none
    openFile := fun p =>
      if p = goStr "." then
        some { content := [], failAfter := none, entries := some backslashDir }
      else if p = goStr "a\\b" then
        some { content := goStr "x", failAfter := none, entries := none }
      else none
    formatTime := fun _ => []
    template := none }

/-! # Theorems -/

/-! ## Lemmas on `Clean` and `Base` -/

theorem goStr_dot : goStr "." = [dot] := by decide

theorem cleanLoop_nil (rooted : Bool) (fuel : Nat) (out : GoString) (dd : Nat) :
    cleanLoop rooted fuel [] out dd = out := by
  cases fuel <;> rfl

/-- The bound on the iterations of `cleanLoop` is never reached: with any two
bounds of at least the number of bytes left the loop gives the same result, so
the loop of `Clean` runs until the path is consumed. -/
theorem cleanLoop_fuel (rooted : Bool) : ∀ (f1 f2 : Nat) (rest out : GoString) (dd : Nat),
    rest.length ≤ f1 → rest.length ≤ f2 →
      cleanLoop rooted f1 rest out dd = cleanLoop rooted f2 rest out dd := by
  intro f1
  induction f1 with
  | zero =>
    intro f2 rest out dd h1 _
    have : rest = [] := List.length_eq_zero.mp (Nat.le_zero.mp h1)
    rw [this, cleanLoop_nil, cleanLoop_nil]
  | succ f ih =>
    intro f2 rest out dd h1 h2
    cases rest with
    | nil => rw [cleanLoop_nil, cleanLoop_nil]
    | cons c t =>
      obtain ⟨g, rfl⟩ : ∃ g, f2 = g + 1 := ⟨f2 - 1, by simp at h2; omega⟩
      have ht1 : t.length ≤ f := by simpa using h1
      have ht2 : t.length ≤ g := by simpa using h2
      have htl : t.tail.length ≤ t.length := by simp
      rw [cleanLoop, cleanLoop]
      by_cases c1 : c = slash
      · rw [if_pos c1, if_pos c1]; exact ih g t out dd ht1 ht2
      rw [if_neg c1, if_neg c1]
      by_cases c2 : c = dot ∧ (t = [] ∨ t.head? = some slash)
      · rw [if_pos c2, if_pos c2]; exact ih g t out dd ht1 ht2
      rw [if_neg c2, if_neg c2]
      by_cases c3 : c = dot ∧ t.head? = some dot ∧ (t.tail = [] ∨ t.tail.head? = some slash)
      · rw [if_pos c3, if_pos c3]
        by_cases c4 : out.length > dd
        · rw [if_pos c4, if_pos c4]; exact ih g _ _ dd (by omega) (by omega)
        rw [if_neg c4, if_neg c4]
        by_cases c5 : rooted = false
        · rw [if_pos c5, if_pos c5]; exact ih g _ _ _ (by omega) (by omega)
        · rw [if_neg c5, if_neg c5]; exact ih g _ _ dd (by omega) (by omega)
      rw [if_neg c3, if_neg c3]
      have hd : ((c :: t).dropWhile (fun b => decide (b ≠ slash))).length ≤ t.length := by
        rw [List.dropWhile_cons, if_pos (by simpa using c1)]
        exact (List.dropWhile_sublist _).length_le
      exact ih g _ _ dd (by omega) (by omega)

/-- A file name is not a separator, a `.` element or a `..` element. -/
theorem IsFileName.real_element {c : Nat} {rest : GoString} (h : IsFileName (c :: rest)) :
    c ≠ slash ∧ ¬ (c = dot ∧ (rest = [] ∨ rest.head? = some slash)) ∧
      ¬ (c = dot ∧ rest.head? = some dot ∧ (rest.tail = [] ∨ rest.tail.head? = some slash)) := by
  obtain ⟨-, hs, hd, hdd⟩ := h
  simp only [List.mem_cons, not_or] at hs
  refine ⟨fun h => hs.1 h.symm, ?_, ?_⟩
  · rintro ⟨rfl, h | h⟩
    · exact hd (by rw [h])
    · cases rest with
      | nil => simp at h
      | cons d t =>
        simp only [List.head?_cons, Option.some.injEq] at h
        exact hs.2 (by simp [h])
  · rintro ⟨rfl, h1, h2⟩
    cases rest with
    | nil => simp at h1
    | cons d t =>
      simp only [List.head?_cons, Option.some.injEq] at h1
      subst h1
      simp only [List.tail_cons] at h2
      rcases h2 with h2 | h2
      · exact hdd (by rw [h2])
      · cases t with
        | nil => simp at h2
        | cons e u =>
          simp only [List.head?_cons, Option.some.injEq] at h2
          exact hs.2 (by simp [h2])

/-- The loop of `Clean` at the last element of the path, a file name: the name
is appended to the output, after a separator if one is needed. -/
theorem cleanLoop_fileName (rooted : Bool) {name : GoString} (h : IsFileName name)
    (fuel : Nat) (hf : name.length + 1 ≤ fuel) (out : GoString) (dd : Nat) :
    cleanLoop rooted fuel (slash :: name) out dd =
      (if (rooted = true ∧ out.length ≠ 1) ∨ (rooted = false ∧ out.length ≠ 0)
        then out ++ [slash] else out) ++ name := by
  cases name with
  | nil => exact absurd rfl h.1
  | cons c rest =>
    obtain ⟨hc, hdot, hdd⟩ := h.real_element
    have hall : ∀ b ∈ c :: rest, b ≠ slash := fun b hb hbs => h.2.1 (hbs ▸ hb)
    obtain ⟨f, rfl⟩ : ∃ f, fuel = f + 2 := ⟨fuel - 2, by simp at hf; omega⟩
    rw [cleanLoop, if_pos rfl, cleanLoop, if_neg hc, if_neg hdot, if_neg hdd]
    have ht : (c :: rest).takeWhile (fun b => decide (b ≠ slash)) = c :: rest :=
      List.takeWhile_eq_self_iff.mpr (fun b hb => by simpa using hall b hb)
    have hd : (c :: rest).dropWhile (fun b => decide (b ≠ slash)) = [] :=
      List.dropWhile_eq_nil_iff.mpr (fun b hb => by simpa using hall b hb)
    simp only [ht, hd, cleanLoop_nil]

/-- From any element boundary before the last separator of the path the loop
of `Clean` arrives at that separator. -/
theorem cleanLoop_reaches_last (rooted : Bool) (name : GoString) :
    ∀ (fuel : Nat) (x out : GoString) (dd : Nat), (x ++ slash :: name).length ≤ fuel →
      ∃ (fuel1 : Nat) (out1 : GoString) (dd1 : Nat), name.length + 1 ≤ fuel1 ∧
        cleanLoop rooted fuel (x ++ slash :: name) out dd =
          cleanLoop rooted fuel1 (slash :: name) out1 dd1 := by
  intro fuel
  induction fuel with
  | zero => intro x out dd hf; simp at hf
  | succ f ih =>
    intro x out dd hf
    cases x with
    | nil => exact ⟨f + 1, out, dd, by simpa using hf, rfl⟩
    | cons c x1 =>
      have hf1 : (x1 ++ slash :: name).length ≤ f := by
        simp only [List.cons_append, List.length_cons] at hf; omega
      rw [List.cons_append, cleanLoop]
      by_cases h1 : c = slash
      · rw [if_pos h1]; exact ih x1 out dd hf1
      rw [if_neg h1]
      by_cases h2 : c = dot ∧ (x1 ++ slash :: name = [] ∨ (x1 ++ slash :: name).head? = some slash)
      · rw [if_pos h2]; exact ih x1 out dd hf1
      rw [if_neg h2]
      by_cases h3 : c = dot ∧ (x1 ++ slash :: name).head? = some dot ∧
          ((x1 ++ slash :: name).tail = [] ∨ (x1 ++ slash :: name).tail.head? = some slash)
      · rw [if_pos h3]
        cases x1 with
        | nil => simp [slash, dot] at h3
        | cons d x2 =>
          have hf2 : (x2 ++ slash :: name).length ≤ f := by
            simp only [List.cons_append, List.length_cons] at hf1; omega
          simp only [List.cons_append, List.tail_cons]
          by_cases h4 : out.length > dd
          · rw [if_pos h4]; exact ih x2 _ dd hf2
          rw [if_neg h4]
          by_cases h5 : rooted = false
          · rw [if_pos h5]; exact ih x2 _ _ hf2
          · rw [if_neg h5]; exact ih x2 _ dd hf2
      rw [if_neg h3]
      · -- real element: the copy stops at the first separator
        have key : ∀ (y : GoString), ∃ z, z.length ≤ y.length ∧
            (y ++ slash :: name).dropWhile (fun b => decide (b ≠ slash)) = z ++ slash :: name := by
          intro y
          induction y with
          | nil => exact ⟨[], le_refl _, by simp [List.dropWhile]⟩
          | cons e y ihy =>
            obtain ⟨z, hz, hzeq⟩ := ihy
            by_cases he : e = slash
            · exact ⟨e :: y, le_refl _, by simp [List.dropWhile, he]⟩
            · refine ⟨z, by simp only [List.length_cons]; omega, ?_⟩
              rw [List.cons_append, List.dropWhile_cons, if_pos (by simpa using he), hzeq]
        obtain ⟨z, hz, hzeq⟩ := key x1
        have hd : (c :: (x1 ++ slash :: name)).dropWhile (fun b => decide (b ≠ slash)) =
            z ++ slash :: name := by
          rw [List.dropWhile_cons, if_pos (by simpa using h1), hzeq]
        simp only [hd]
        exact ih z _ dd (by simp only [List.length_append, List.length_cons] at hf1 ⊢; omega)

/-- The last element of a path that ends in a file name preceded by nothing or
by a separator is that file name. -/
theorem Base_append_fileName {name : GoString} (h : IsFileName name) (pre : GoString)
    (hpre : pre = [] ∨ pre.getLast? = some slash) : Base (pre ++ name) = name := by
  have hall : ∀ b ∈ name.reverse, b ≠ slash := fun b hb hbs =>
    h.2.1 (hbs ▸ List.mem_reverse.mp hb)
  have hne : name.reverse ≠ [] := by simpa using h.1
  have hstrip : (pre ++ name).reverse.dropWhile (fun b => decide (b = slash)) =
      (pre ++ name).reverse := by
    rw [List.reverse_append]
    cases hr : name.reverse with
    | nil => exact absurd hr hne
    | cons c t =>
      have : c ≠ slash := hall c (by rw [hr]; simp)
      simp [List.dropWhile, this]
  have htake : (name.reverse ++ pre.reverse).takeWhile (fun b => decide (b ≠ slash)) =
      name.reverse := by
    have hp : pre.reverse.takeWhile (fun b => decide (b ≠ slash)) = [] := by
      rcases hpre with rfl | hl
      · rfl
      · cases hr : pre.reverse with
        | nil => rfl
        | cons c t =>
          have : pre.getLast? = some c := by
            rw [List.getLast?_eq_head?_reverse, hr]; rfl
          rw [hl] at this
          cases this
          simp [List.takeWhile]
    rw [List.takeWhile_append_of_pos (fun b hb => by simpa using hall b hb), hp, List.append_nil]
  have hpn : pre ++ name ≠ [] := by simp [h.1]
  unfold Base
  rw [if_neg hpn]
  simp only [hstrip, List.reverse_reverse]
  rw [List.reverse_append, htake, List.reverse_reverse, if_neg h.1]

/-- The function `Clean` on a path that starts with `.`: not rooted. -/
theorem Clean_dot_cons (rest : GoString) :
    Clean (dot :: rest) =
      if (cleanLoop false (rest.length + 1) (dot :: rest) [] 0).length = 0 then [dot]
      else cleanLoop false (rest.length + 1) (dot :: rest) [] 0 := by
  have hr : (decide ((dot :: rest).head? = some slash)) = false := by
    simp [dot, slash]
  simp only [Clean, hr, List.length_cons]
  simp

/-- The check of `handleFileServer` against the executable's name sees the
final segment of the URL path when that segment is a file name. -/
theorem Base_localPathOf {name : GoString} (h : IsFileName name) (pre : GoString) :
    Base (localPathOf (pre ++ slash :: name)) = name := by
  obtain ⟨fuel1, out1, dd1, hf1, heq⟩ :=
    cleanLoop_reaches_last false name ((pre ++ slash :: name).length + 1)
      (dot :: pre) [] 0 (by simp)
  have hloop := cleanLoop_fileName false h fuel1 hf1 out1 dd1
  have hn : name.length ≠ 0 := by simpa using h.1
  unfold localPathOf
  rw [goStr_dot, List.singleton_append, Clean_dot_cons]
  rw [List.cons_append] at heq
  rw [heq, hloop]
  rw [if_neg (by simp only [List.length_append]; omega)]
  apply Base_append_fileName h
  by_cases hc : (false = true ∧ out1.length ≠ 1) ∨ (false = false ∧ out1.length ≠ 0)
  · rw [if_pos hc]; right; simp
  · rw [if_neg hc]; left
    simp only [Bool.false_eq_true, false_and, true_and, false_or, ne_eq, not_not] at hc
    exact List.length_eq_zero.mp hc

/-- A file name requested directly under the root is its own local path. -/
theorem localPathOf_root {name : GoString} (h : IsFileName name) :
    localPathOf (slash :: name) = name := by
  have hn : name.length ≠ 0 := by simpa using h.1
  unfold localPathOf
  rw [goStr_dot, List.singleton_append, Clean_dot_cons]
  have hstep : cleanLoop false ((slash :: name).length + 1) (dot :: slash :: name) [] 0 =
      cleanLoop false (slash :: name).length (slash :: name) [] 0 := by
    rw [cleanLoop, if_neg (by simp [dot, slash]), if_pos ⟨rfl, Or.inr rfl⟩]
  rw [hstep, cleanLoop_fileName false h _ (by simp)]
  simp [hn]

/-! ## Responses of the handler -/

theorem finish_httpError_new (error : String) (code : Nat) :
    (httpError ResponseWriter.new error code).finish = errorResponse error code := by
  simp [httpError, ResponseWriter.new, ResponseWriter.del, ResponseWriter.set,
    ResponseWriter.writeHeader, ResponseWriter.write, ResponseWriter.finish, errorResponse]

/-- The self check: a local path named like the executable is refused before
the file system is consulted. -/
theorem handleFileServer_of_self (env : Env) (urlPath : GoString)
    (h : Base (localPathOf urlPath) = Base env.executable) :
    handleFileServer env urlPath = errorResponse "无权访问此文件" StatusForbidden := by
  unfold handleFileServer serve
  simp only [h, if_true]
  exact finish_httpError_new _ _

/-- Past the self check, a failing `os.Stat` gives the not-found response. -/
theorem handleFileServer_of_stat_error (env : Env) (urlPath : GoString)
    (h : Base (localPathOf urlPath) ≠ Base env.executable)
    (hstat : env.stat (localPathOf urlPath) = none) :
    handleFileServer env urlPath = errorResponse "文件或目录不存在" StatusNotFound := by
  unfold handleFileServer serve
  simp only [h, if_false, hstat]
  exact finish_httpError_new _ _

/-- Past the self check, a regular file that opens and copies without error is
streamed as a download named after the last element of the local path. -/
theorem handleFileServer_of_file (env : Env) (urlPath : GoString) (info : OsFileInfo)
    (file : OsFile) (h : Base (localPathOf urlPath) ≠ Base env.executable)
    (hstat : env.stat (localPathOf urlPath) = some info) (hreg : info.isDir = false)
    (hopen : env.openFile (localPathOf urlPath) = some file) (hcopy : file.failAfter = none) :
    handleFileServer env urlPath =
      downloadResponse (Base (localPathOf urlPath)) file.content := by
  unfold handleFileServer serve
  simp only [h, if_false, hstat, hreg, hopen, ioCopy, hcopy, Bool.false_eq_true,
    Option.isSome_none]
  by_cases hc : file.content = []
  · simp [hc, ResponseWriter.new, ResponseWriter.set, ResponseWriter.writeHeader,
      ResponseWriter.finish, downloadResponse]
  · simp [hc, ResponseWriter.new, ResponseWriter.set, ResponseWriter.writeHeader,
      ResponseWriter.write, ResponseWriter.finish, downloadResponse]

/-! ## Ordering -/

/-- The comparison `strLess` is the lexicographic order of the bytes. -/
theorem strLess_iff_lex : ∀ (a b : GoString),
    strLess a b = true ↔ List.Lex (fun x y : Nat => x < y) a b
  | _, [] => by
    constructor
    · intro h; simp [strLess] at h
    · intro h; cases h
  | [], _ :: _ => by
    constructor
    · intro _; exact List.Lex.nil
    · intro _; simp [strLess]
  | x :: xs, y :: ys => by
    have ih := strLess_iff_lex xs ys
    constructor
    · intro h
      simp only [strLess] at h
      by_cases h1 : x < y
      · exact List.Lex.rel h1
      · by_cases h2 : y < x
        · simp [h1, h2] at h
        · have hxy : x = y := by omega
          subst hxy
          simp only [h1, if_false] at h
          exact List.Lex.cons (ih.mp h)
    · intro h
      simp only [strLess]
      cases h with
      | cons h => simp [ih.mpr h]
      | rel h => simp [h]

theorem strLess_irrefl (a : GoString) : strLess a a = false := by
  induction a with
  | nil => rfl
  | cons x xs ih => simp [strLess, ih]

theorem strLess_asymm : ∀ (a b : GoString), strLess a b = true → strLess b a = false
  | _, [], h => by simp [strLess] at h
  | [], _ :: _, _ => by simp [strLess]
  | x :: xs, y :: ys, h => by
    simp only [strLess] at h ⊢
    by_cases h1 : x < y
    · have h2 : ¬ y < x := by omega
      simp [h1, h2]
    · by_cases h2 : y < x
      · simp [h1, h2] at h
      · simp only [h1, h2, if_false] at h ⊢
        exact strLess_asymm xs ys h

theorem strLess_negtrans : ∀ (a b c : GoString),
    strLess a b = false → strLess b c = false → strLess a c = false
  | _, _, [], _, _ => by simp [strLess]
  | _, [], _ :: _, _, h => by simp [strLess] at h
  | [], _ :: _, _ :: _, h, _ => by simp [strLess] at h
  | x :: xs, y :: ys, z :: zs, h1, h2 => by
    simp only [strLess] at h1 h2 ⊢
    by_cases hxy : x < y
    · simp [hxy] at h1
    · by_cases hyz : y < z
      · simp [hyz] at h2
      · have hxz : ¬ x < z := by omega
        simp only [hxy, hyz, hxz, if_false] at h1 h2 ⊢
        by_cases hzx : z < x
        · simp [hzx]
        · have hyx : ¬ y < x := by omega
          have hzy : ¬ z < y := by omega
          simp only [hzx, hyx, hzy, if_false] at h1 h2 ⊢
          exact strLess_negtrans xs ys zs h1 h2

theorem strLess_total : ∀ (a b : GoString),
    strLess a b = false → strLess b a = false → a = b
  | [], [], _, _ => rfl
  | [], _ :: _, h, _ => by simp [strLess] at h
  | _ :: _, [], _, h => by simp [strLess] at h
  | x :: xs, y :: ys, h1, h2 => by
    simp only [strLess] at h1 h2
    by_cases hxy : x < y
    · simp [hxy] at h1
    · by_cases hyx : y < x
      · simp [hyx] at h2
      · simp only [hxy, hyx, if_false] at h1 h2
        have : x = y := by omega
        rw [this, strLess_total xs ys h1 h2]

theorem lessFiles_asymm (a b : FileInfo) (h : lessFiles a b = true) : lessFiles b a = false := by
  unfold lessFiles at h ⊢
  cases ha : a.IsDir <;> cases hb : b.IsDir <;> simp [ha, hb] at h ⊢ <;>
    exact strLess_asymm _ _ h

theorem lessFiles_negtrans (a b c : FileInfo) (h1 : lessFiles a b = false)
    (h2 : lessFiles b c = false) : lessFiles a c = false := by
  unfold lessFiles at h1 h2 ⊢
  cases ha : a.IsDir <;> cases hb : b.IsDir <;> cases hc : c.IsDir <;>
    simp [ha, hb, hc] at h1 h2 ⊢ <;> exact strLess_negtrans _ _ _ h1 h2

theorem dropWhile_head_false {α : Type} (p : α → Bool) :
    ∀ (l : List α) (d : α) (t : List α), l.dropWhile p = d :: t → p d = false
  | [], _, _, h => by simp at h
  | a :: l, d, t, h => by
    rw [List.dropWhile_cons] at h
    by_cases hp : p a = true
    · rw [if_pos hp] at h
      exact dropWhile_head_false p l d t h
    · rw [if_neg hp] at h
      cases h
      simpa using hp

theorem insertFromRight_split {α : Type} (less : α → α → Bool) (x : α) (pre : List α) :
    (pre.reverse.dropWhile (fun y => less x y)).reverse ++
      (pre.reverse.takeWhile (fun y => less x y)).reverse = pre := by
  rw [← List.reverse_append, List.takeWhile_append_dropWhile, List.reverse_reverse]

theorem insertFromRight_perm {α : Type} (less : α → α → Bool) (x : α) (pre : List α) :
    (insertFromRight less x pre).Perm (x :: pre) := by
  unfold insertFromRight
  refine List.perm_middle.trans (List.Perm.cons x ?_)
  rw [insertFromRight_split]

theorem sortSlice_perm {α : Type} (less : α → α → Bool) (data : List α) :
    (sortSlice less data).Perm data := by
  have key : ∀ (l acc : List α),
      (l.foldl (fun pre x => insertFromRight less x pre) acc).Perm (acc ++ l) := by
    intro l
    induction l with
    | nil => intro acc; simp
    | cons a l ih =>
      intro acc
      rw [List.foldl_cons]
      refine (ih _).trans ?_
      refine (List.Perm.append_right l (insertFromRight_perm less a acc)).trans ?_
      simp only [List.cons_append]
      exact List.perm_middle.symm
  simpa using key data []

theorem insertFromRight_ordered {α : Type} (less : α → α → Bool)
    (hasymm : ∀ a b, less a b = true → less b a = false)
    (hneg : ∀ a b c, less a b = false → less b c = false → less a c = false)
    (x : α) (pre : List α) (h : Ordered less pre) : Ordered less (insertFromRight less x pre) := by
  unfold Ordered at h ⊢
  unfold insertFromRight
  have hsplit := insertFromRight_split less x pre
  generalize hK : (pre.reverse.dropWhile (fun y => less x y)) = D at hsplit ⊢
  generalize hM : (pre.reverse.takeWhile (fun y => less x y)) = T at hsplit ⊢
  rw [← hsplit, List.pairwise_append] at h
  obtain ⟨hKK, hMM, hKM⟩ := h
  rw [List.pairwise_append, List.pairwise_cons]
  refine ⟨hKK, ⟨?_, hMM⟩, ?_⟩
  · intro m hm
    have hm1 : m ∈ pre.reverse.takeWhile (fun y => less x y) := by
      rw [hM]; exact List.mem_reverse.mp hm
    exact hasymm x m (List.mem_takeWhile_imp hm1)
  · intro k hk b hb
    rcases List.mem_cons.mp hb with rfl | hb
    · cases D with
      | nil => simp at hk
      | cons d t =>
        have hd : less b d = false := dropWhile_head_false _ _ d t hK
        rw [List.reverse_cons, List.mem_append, List.mem_singleton] at hk
        rcases hk with hk | rfl
        · rw [List.reverse_cons, List.pairwise_append] at hKK
          exact hneg b d k hd (hKK.2.2 k hk d (by simp))
        · exact hd
    · exact hKM k hk b hb

theorem sortSlice_ordered {α : Type} (less : α → α → Bool)
    (hasymm : ∀ a b, less a b = true → less b a = false)
    (hneg : ∀ a b c, less a b = false → less b c = false → less a c = false)
    (data : List α) : Ordered less (sortSlice less data) := by
  have key : ∀ (l acc : List α), Ordered less acc →
      Ordered less (l.foldl (fun pre x => insertFromRight less x pre) acc) := by
    intro l
    induction l with
    | nil => intro acc h; exact h
    | cons a l ih =>
      intro acc h
      exact ih _ (insertFromRight_ordered less hasymm hneg a acc h)
  exact key data [] List.Pairwise.nil

/-- Two ordered arrangements of the same elements coincide when no two distinct
elements compare as equal: the result of `sort.Slice` is then determined by the
comparison function alone. -/
theorem ordered_perm_unique {α : Type} (less : α → α → Bool) :
    ∀ (l1 l2 : List α),
      (∀ a ∈ l1, ∀ b ∈ l1, less a b = false → less b a = false → a = b) →
      l1.Perm l2 → Ordered less l1 → Ordered less l2 → l1 = l2
  | [], l2, _, hp, _, _ => (List.nil_perm.mp hp).symm
  | a :: l1, [], _, hp, _, _ => absurd hp.symm (by simp)
  | a :: l1, b :: l2, hu, hp, h1, h2 => by
    have hab : a = b := by
      by_contra hne
      have hb1 : b ∈ l1 := by
        have : b ∈ a :: l1 := hp.symm.subset (List.mem_cons_self b l2)
        rcases List.mem_cons.mp this with h | h
        · exact absurd h.symm hne
        · exact h
      have ha2 : a ∈ l2 := by
        have : a ∈ b :: l2 := hp.subset (List.mem_cons_self a l1)
        rcases List.mem_cons.mp this with h | h
        · exact absurd h hne
        · exact h
      have r1 : less b a = false := (List.pairwise_cons.mp h1).1 b hb1
      have r2 : less a b = false := (List.pairwise_cons.mp h2).1 a ha2
      exact hne (hu a (List.mem_cons_self a l1) b (List.mem_cons_of_mem a hb1) r2 r1)
    subst hab
    have := ordered_perm_unique less l1 l2
      (fun x hx y hy => hu x (List.mem_cons_of_mem a hx) y (List.mem_cons_of_mem a hy))
      (List.Perm.cons_inv hp) (List.pairwise_cons.mp h1).2 (List.pairwise_cons.mp h2).2
    rw [this]

/-- The result of `sort.Slice` on rows with distinct names: every ordered
arrangement of the rows, whatever algorithm produced it, is the list
`sortSlice` computes. -/
theorem sortSlice_unique (files out : List FileInfo) (hn : (files.map FileInfo.Name).Nodup)
    (hp : out.Perm files) (ho : Ordered lessFiles out) : out = sortSlice lessFiles files := by
  have hp2 : out.Perm (sortSlice lessFiles files) := hp.trans (sortSlice_perm _ _).symm
  refine ordered_perm_unique lessFiles out _ ?_ hp2 ho
    (sortSlice_ordered lessFiles lessFiles_asymm lessFiles_negtrans files)
  intro a ha b hb h1 h2
  have hname : a.Name = b.Name := by
    unfold lessFiles at h1 h2
    cases hda : a.IsDir <;> cases hdb : b.IsDir <;> simp [hda, hdb] at h1 h2
    · exact strLess_total _ _ h1 h2
    · exact strLess_total _ _ h1 h2
  exact List.inj_on_of_nodup_map hn (hp.subset ha) (hp.subset hb) hname

/-! ## The listing -/

theorem buildFiles_eq (env : Env) (urlPath execName : GoString) (fileInfos : List OsFileInfo) :
    buildFiles env urlPath execName fileInfos =
      (fileInfos.filter (isListed execName)).map (makeFileInfo env urlPath) := by
  have key : ∀ (l : List OsFileInfo) (acc : List FileInfo),
      l.foldl (fun files info =>
          if HasPrefix info.name (goStr ".") || decide (info.name = execName) then files
          else files ++ [makeFileInfo env urlPath info]) acc =
        acc ++ (l.filter (isListed execName)).map (makeFileInfo env urlPath) := by
    intro l
    induction l with
    | nil => intro acc; simp
    | cons a l ih =>
      intro acc
      rw [List.foldl_cons, ih]
      by_cases h : (HasPrefix a.name (goStr ".") || decide (a.name = execName)) = true
      · have h2 : isListed execName a = false := by simp [isListed, h]
        rw [if_pos h, List.filter_cons_of_neg (by simp [h2])]
      · have h2 : isListed execName a = true := by
          simp only [Bool.not_eq_true] at h
          simp [isListed, h]
        rw [if_neg h, List.filter_cons_of_pos h2, List.map_cons, List.append_assoc]
        rfl
  have := key fileInfos []
  rw [List.nil_append] at this
  exact this

theorem listFiles_perm (env : Env) (urlPath execName : GoString) (fileInfos : List OsFileInfo) :
    (listFiles env urlPath execName fileInfos).Perm
      ((fileInfos.filter (isListed execName)).map (makeFileInfo env urlPath)) := by
  unfold listFiles
  rw [← buildFiles_eq]
  exact sortSlice_perm _ _

theorem mem_listFiles {env : Env} {urlPath execName : GoString} {fileInfos : List OsFileInfo}
    {row : FileInfo} (h : row ∈ listFiles env urlPath execName fileInfos) :
    ∃ info ∈ fileInfos, isListed execName info = true ∧ row = makeFileInfo env urlPath info := by
  have := (listFiles_perm env urlPath execName fileInfos).subset h
  obtain ⟨info, hi, rfl⟩ := List.mem_map.mp this
  obtain ⟨hm, hl⟩ := List.mem_filter.mp hi
  exact ⟨info, hm, hl, rfl⟩

theorem ordered_dirs_first : ∀ (l : List FileInfo), Ordered lessFiles l →
    l = l.filter (fun f => f.IsDir) ++ l.filter (fun f => !f.IsDir)
  | [], _ => rfl
  | a :: t, h => by
    obtain ⟨ha, ht⟩ := List.pairwise_cons.mp h
    have ih := ordered_dirs_first t ht
    cases hd : a.IsDir with
    | true =>
      rw [List.filter_cons_of_pos (by simpa using hd), List.filter_cons_of_neg (by simp [hd]),
        List.cons_append, ← ih]
    | false =>
      have hall : ∀ b ∈ t, b.IsDir = false := by
        intro b hb
        have := ha b hb
        unfold lessFiles at this
        cases hbd : b.IsDir with
        | false => rfl
        | true => simp [hbd, hd] at this
      have h1 : t.filter (fun f => f.IsDir) = [] :=
        List.filter_eq_nil_iff.mpr (fun b hb => by simp [hall b hb])
      have h2 : t.filter (fun f => !f.IsDir) = t :=
        List.filter_eq_self.mpr (fun b hb => by simp [hall b hb])
      rw [List.filter_cons_of_neg (by simp [hd]), List.filter_cons_of_pos (by simp [hd]),
        h1, h2, List.nil_append]

theorem ordered_names_of_same_kind (l : List FileInfo) (d : Bool) (h : Ordered lessFiles l) :
    Ordered strLess ((l.filter (fun f => f.IsDir == d)).map FileInfo.Name) := by
  unfold Ordered at h ⊢
  rw [List.pairwise_map]
  refine List.Pairwise.imp_of_mem ?_ (List.Pairwise.filter _ h)
  intro a b ha hb hab
  have hda : a.IsDir = d := by simpa using (List.mem_filter.mp ha).2
  have hdb : b.IsDir = d := by simpa using (List.mem_filter.mp hb).2
  unfold lessFiles at hab
  cases d <;> simpa [hda, hdb] using hab

theorem count_listed_names (execName : GoString) (n : GoString) (l : List OsFileInfo) :
    ((l.filter (isListed execName)).map OsFileInfo.name).count n =
      if HasPrefix n (goStr ".") || decide (n = execName) then 0
      else (l.map OsFileInfo.name).count n := by
  by_cases hn : (HasPrefix n (goStr ".") || decide (n = execName)) = true
  · rw [if_pos hn]
    refine List.count_eq_zero.mpr (fun hm => ?_)
    obtain ⟨a, ha, rfl⟩ := List.mem_map.mp hm
    have hl := (List.mem_filter.mp ha).2
    rw [isListed, hn] at hl
    exact absurd hl (by decide)
  · rw [if_neg hn]
    induction l with
    | nil => rfl
    | cons a l ih =>
      by_cases hl : isListed execName a = true
      · rw [List.filter_cons_of_pos hl, List.map_cons, List.map_cons, List.count_cons,
          List.count_cons, ih]
      · have hne : (a.name == n) = false := by
          cases hb : (a.name == n) with
          | false => rfl
          | true =>
            have hEq : a.name = n := by simpa using hb
            rw [isListed, hEq] at hl
            simp only [Bool.not_eq_true] at hn
            rw [hn] at hl
            exact absurd rfl hl
        rw [List.filter_cons_of_neg hl, List.map_cons, List.count_cons, ih, hne]
        rfl

/-! ## Bytes of a cleaned path -/

theorem mem_backtrack {out : GoString} {dd b : Nat} (h : b ∈ backtrack out dd) : b ∈ out :=
  List.mem_of_mem_take h

theorem mem_cleanLoop (rooted : Bool) : ∀ (fuel : Nat) (rest out : GoString) (dd b : Nat),
    b ∈ cleanLoop rooted fuel rest out dd → b ∈ rest ∨ b ∈ out ∨ b = dot ∨ b = slash := by
  intro fuel
  induction fuel with
  | zero => intro rest out dd b h; exact Or.inr (Or.inl h)
  | succ f ih =>
    intro rest out dd b h
    cases rest with
    | nil => exact Or.inr (Or.inl h)
    | cons c rest =>
      have tail_sub : ∀ {y : Nat}, y ∈ rest.tail → y ∈ c :: rest := fun hy =>
        List.mem_cons_of_mem _ (List.mem_of_mem_tail hy)
      rw [cleanLoop] at h
      by_cases h1 : c = slash
      · rw [if_pos h1] at h
        rcases ih _ _ _ _ h with h | h
        · exact Or.inl (List.mem_cons_of_mem _ h)
        · exact Or.inr h
      rw [if_neg h1] at h
      by_cases h2 : c = dot ∧ (rest = [] ∨ rest.head? = some slash)
      · rw [if_pos h2] at h
        rcases ih _ _ _ _ h with h | h
        · exact Or.inl (List.mem_cons_of_mem _ h)
        · exact Or.inr h
      rw [if_neg h2] at h
      by_cases h3 : c = dot ∧ rest.head? = some dot ∧
          (rest.tail = [] ∨ rest.tail.head? = some slash)
      · rw [if_pos h3] at h
        by_cases h4 : out.length > dd
        · rw [if_pos h4] at h
          rcases ih _ _ _ _ h with h | h | h
          · exact Or.inl (tail_sub h)
          · exact Or.inr (Or.inl (mem_backtrack h))
          · exact Or.inr (Or.inr h)
        rw [if_neg h4] at h
        by_cases h5 : rooted = false
        · rw [if_pos h5] at h
          rcases ih _ _ _ _ h with h | h | h
          · exact Or.inl (tail_sub h)
          · simp only [List.mem_append, List.mem_cons, List.mem_singleton,
              List.not_mem_nil, or_false] at h
            rcases h with h | h | h
            · split_ifs at h
              · rcases List.mem_append.mp h with h | h
                · exact Or.inr (Or.inl h)
                · exact Or.inr (Or.inr (Or.inr (by simpa using h)))
              · exact Or.inr (Or.inl h)
            · exact Or.inr (Or.inr (Or.inl h))
            · exact Or.inr (Or.inr (Or.inl h))
          · exact Or.inr (Or.inr h)
        · rw [if_neg h5] at h
          rcases ih _ _ _ _ h with h | h
          · exact Or.inl (tail_sub h)
          · exact Or.inr h
      rw [if_neg h3] at h
      rcases ih _ _ _ _ h with h | h | h
      · exact Or.inl ((List.dropWhile_sublist _).subset h)
      · rcases List.mem_append.mp h with h | h
        · split_ifs at h
          · rcases List.mem_append.mp h with h | h
            · exact Or.inr (Or.inl h)
            · exact Or.inr (Or.inr (Or.inr (by simpa using h)))
          · exact Or.inr (Or.inl h)
        · exact Or.inl ((List.takeWhile_sublist _).subset h)
      · exact Or.inr (Or.inr h)

/-- The function `Clean` writes only bytes of its argument, `.` and `/`. -/
theorem mem_Clean {path : GoString} {b : Nat} (h : b ∈ Clean path) :
    b ∈ path ∨ b = dot ∨ b = slash := by
  unfold Clean at h
  by_cases hp : path = []
  · rw [if_pos hp] at h
    exact Or.inr (Or.inl (by simpa using h))
  rw [if_neg hp] at h
  simp only at h
  split_ifs at h with h1 h2 h3
  · exact Or.inr (Or.inl (by simpa using h))
  · rcases mem_cleanLoop _ _ _ _ _ _ h with h | h | h
    · exact Or.inl (List.mem_of_mem_tail h)
    · exact Or.inr (Or.inr (by simpa using h))
    · exact Or.inr h
  · exact Or.inr (Or.inl (by simpa using h))
  · rcases mem_cleanLoop _ _ _ _ _ _ h with h | h | h
    · exact Or.inl h
    · simp at h
    · exact Or.inr h

theorem mem_Join_pair {a n : GoString} {b : Nat} (h : b ∈ Join [a, n]) :
    b ∈ a ∨ b ∈ n ∨ b = dot ∨ b = slash := by
  unfold Join at h
  by_cases ha : a = []
  · rw [if_neg (by simpa using ha)] at h
    unfold Join at h
    by_cases hn : n = []
    · rw [if_neg (by simpa using hn)] at h
      simp [Join] at h
    · rw [if_pos hn] at h
      rcases mem_Clean h with h | h
      · exact Or.inr (Or.inl (by simpa [stringsJoin] using h))
      · exact Or.inr (Or.inr h)
  · rw [if_pos ha] at h
    rcases mem_Clean h with h | h
    · simp only [stringsJoin, List.mem_append, List.mem_singleton] at h
      rcases h with (h | h) | h
      · exact Or.inl h
      · exact Or.inr (Or.inr (Or.inr h))
      · exact Or.inr (Or.inl h)
    · exact Or.inr (Or.inr h)

theorem ReplaceByte_not_mem (s : GoString) (old new : Nat) (h : new ≠ old) :
    old ∉ ReplaceByte s old new := by
  unfold ReplaceByte
  intro hm
  obtain ⟨b, -, hb⟩ := List.mem_map.mp hm
  by_cases hbo : b = old
  · rw [if_pos hbo] at hb; exact h hb
  · rw [if_neg hbo] at hb; exact hbo hb

theorem ReplaceByte_of_not_mem (s : GoString) (old new : Nat) (h : old ∉ s) :
    ReplaceByte s old new = s := by
  unfold ReplaceByte
  conv_rhs => rw [← List.map_id s]
  refine List.map_congr_left (fun b hb => ?_)
  have : b ≠ old := fun hbo => h (hbo ▸ hb)
  simp [this]

/-! ## `getLocalIP` -/

theorem getLocalIPLoop_eq (text6 : List Nat → GoString) :
    ∀ (addrs : List Addr), getLocalIPLoop text6 addrs =
      match addrs.find? isLanIPv4 with
      | some a => addrText text6 a
      | none => goStr "localhost"
  | [] => rfl
  | Addr.other n t :: rest => by
    rw [getLocalIPLoop, List.find?_cons_of_neg _ (by simp [isLanIPv4])]
    exact getLocalIPLoop_eq text6 rest
  | Addr.ipNet ip m :: rest => by
    rw [getLocalIPLoop]
    by_cases h1 : IsLoopback ip = false
    · rw [if_pos h1]
      by_cases h2 : (To4 ip).isSome = true
      · rw [if_pos h2, List.find?_cons_of_pos _ (by simp [isLanIPv4, h1, h2])]
        rfl
      · rw [if_neg h2, List.find?_cons_of_neg _ (by simp [isLanIPv4, h1, h2])]
        exact getLocalIPLoop_eq text6 rest
    · rw [if_neg h1, List.find?_cons_of_neg _ (by simp [isLanIPv4, h1])]
      exact getLocalIPLoop_eq text6 rest

/-- The loop on a typical address list: loopback, IPv6 and foreign entries are
passed over and the first LAN address is printed in dotted decimal. -/
theorem getLocalIP_example (text6 : List Nat → GoString) :
    getLocalIP text6 (some [Addr.ipNet [127, 0, 0, 1] [255, 0, 0, 0],
      Addr.ipNet IPv6loopback [], Addr.other (goStr "unix") (goStr "/run/x"),
      Addr.ipNet [0, 0, 0, 0, 0, 0, 0, 0, 0, 0, 255, 255, 192, 168, 1, 5] [],
      Addr.ipNet [10, 0, 0, 7] [255, 0, 0, 0]]) = goStr "192.168.1.5" := by
  rfl

/-- The listing of the spec's scenario: `docs` first, then `readme.txt`; the
hidden directory and the server have no row. -/
theorem listFiles_scenario :
    (listFiles rootEnv (goStr "/") (goStr "server.bin") scenarioDir).map
        (fun f => (f.Name, f.IsDir, f.Path)) =
      [(goStr "docs", true, goStr "/docs"), (goStr "readme.txt", false, goStr "/readme.txt")] := by
  decide

/-! ## The claims -/

/-- C1: a request whose final path segment is the executable's file name is
answered with status 403, whatever the file system holds at that path and
whatever precedes the segment. -/
theorem handleFileServer_self_forbidden (env : Env) (pre : GoString)
    (hname : IsFileName (Base env.executable)) :
    (handleFileServer env (pre ++ slash :: Base env.executable)).status = 403 ∧
      handleFileServer env (pre ++ slash :: Base env.executable) =
        errorResponse "无权访问此文件" StatusForbidden := by
  have h := handleFileServer_of_self env (pre ++ slash :: Base env.executable)
    (Base_localPathOf hname pre)
  exact ⟨by rw [h]; rfl, h⟩

/-- Witness of C1: the server of `rootEnv` requested below a directory. -/
theorem handleFileServer_self_forbidden_witness :
    IsFileName (Base rootEnv.executable) ∧
      (handleFileServer rootEnv (goStr "/docs" ++ slash :: Base rootEnv.executable)).status
        = 403 :=
  ⟨by decide, (handleFileServer_self_forbidden rootEnv (goStr "/docs") (by decide)).1⟩

/-- C2: the sort step of `renderDirList` returns a permutation of its input in
which every directory precedes every file and, among the directories and among
the files, the names are in non-decreasing byte order. -/
theorem sortSlice_lessFiles_spec (files : List FileInfo) :
    (sortSlice lessFiles files).Perm files ∧
      sortSlice lessFiles files =
        (sortSlice lessFiles files).filter (fun f => f.IsDir) ++
          (sortSlice lessFiles files).filter (fun f => !f.IsDir) ∧
      Ordered strLess (((sortSlice lessFiles files).filter (fun f => f.IsDir)).map
        FileInfo.Name) ∧
      Ordered strLess (((sortSlice lessFiles files).filter (fun f => !f.IsDir)).map
        FileInfo.Name) := by
  have ho := sortSlice_ordered lessFiles lessFiles_asymm lessFiles_negtrans files
  have e1 : (fun f : FileInfo => f.IsDir == true) = fun f => f.IsDir := by
    funext f; simp
  have e2 : (fun f : FileInfo => f.IsDir == false) = fun f => !f.IsDir := by
    funext f; cases f.IsDir <;> rfl
  refine ⟨sortSlice_perm _ _, ordered_dirs_first _ ho, ?_, ?_⟩
  · have := ordered_names_of_same_kind _ true ho
    rwa [e1] at this
  · have := ordered_names_of_same_kind _ false ho
    rwa [e2] at this

/-- C3: the rows of a listing are exactly the entries of the directory that are
not hidden and not named like the executable: no hidden entry and no entry
named like the executable has a row, and every other name has as many rows as
the directory has entries of that name. -/
theorem listFiles_spec (env : Env) (urlPath execName : GoString)
    (fileInfos : List OsFileInfo) :
    (listFiles env urlPath execName fileInfos).Perm
        ((fileInfos.filter (isListed execName)).map (makeFileInfo env urlPath)) ∧
      (∀ row ∈ listFiles env urlPath execName fileInfos,
        HasPrefix row.Name (goStr ".") = false ∧ row.Name ≠ execName) ∧
      (∀ n : GoString, ((listFiles env urlPath execName fileInfos).map FileInfo.Name).count n =
        if HasPrefix n (goStr ".") || decide (n = execName) then 0
        else (fileInfos.map OsFileInfo.name).count n) := by
  refine ⟨listFiles_perm env urlPath execName fileInfos, ?_, ?_⟩
  · intro row hrow
    obtain ⟨info, -, hl, rfl⟩ := mem_listFiles hrow
    simpa [isListed, makeFileInfo] using hl
  · intro n
    have hp := ((listFiles_perm env urlPath execName fileInfos).map FileInfo.Name).countP_eq
      (fun x => x == n)
    refine Eq.trans hp ?_
    rw [List.map_map]
    exact count_listed_names execName n fileInfos

/-- Counterexample to C4 as stated: in `rootEnv` the request `/sub/server.bin`
names a path that does not exist and is answered with 403. -/
theorem not_found_counterexample :
    ¬ ∀ (env : Env) (urlPath : GoString), env.stat (localPathOf urlPath) = none →
      (handleFileServer env urlPath).status = 404 := by
  intro h
  have h1 := h rootEnv (goStr "/sub/server.bin") rfl
  revert h1
  decide

/-- C4, amended: a request to a path that does not exist and whose last element
is not the executable's name is answered with status 404, and the body holds
the error text only. -/
theorem handleFileServer_not_found (env : Env) (urlPath : GoString)
    (hself : Base (localPathOf urlPath) ≠ Base env.executable)
    (hstat : env.stat (localPathOf urlPath) = none) :
    (handleFileServer env urlPath).status = 404 ∧
      (handleFileServer env urlPath).body = goStr "文件或目录不存在" ++ goStr "\n" := by
  rw [handleFileServer_of_stat_error env urlPath hself hstat]
  exact ⟨rfl, rfl⟩

/-- Witness of C4, amended: `/missing.txt` in `rootEnv`. -/
theorem handleFileServer_not_found_witness :
    (handleFileServer rootEnv (goStr "/missing.txt")).status = 404 ∧
      (handleFileServer rootEnv (goStr "/missing.txt")).body =
        goStr "文件或目录不存在" ++ goStr "\n" :=
  handleFileServer_not_found rootEnv (goStr "/missing.txt") (by decide) rfl

/-- Counterexample to C5 as stated: the server's executable is a regular file
of the root directory, and a request for it does not return its content. -/
theorem download_counterexample :
    ¬ ∀ (env : Env) (name : GoString) (info : OsFileInfo) (file : OsFile),
      IsFileName name → env.stat name = some info → info.isDir = false →
      env.openFile name = some file → file.failAfter = none →
      (handleFileServer env (slash :: name)).body = file.content := by
  intro h
  have h1 := h rootEnv (goStr "server.bin")
    { name := goStr "server.bin", size := 3, modTime := 0, isDir := false }
    { content := goStr "ELF", failAfter := none, entries := none }
    (by decide) rfl rfl rfl rfl
  revert h1
  decide

/-- C5, amended: a regular file of the root directory other than the executable,
opened and copied without error, is returned byte for byte with status 200,
`Content-Type: application/octet-stream` and
`Content-Disposition: attachment; filename=` followed by its name. -/
theorem handleFileServer_download (env : Env) (name : GoString) (info : OsFileInfo)
    (file : OsFile) (hname : IsFileName name) (hself : name ≠ Base env.executable)
    (hstat : env.stat name = some info) (hreg : info.isDir = false)
    (hopen : env.openFile name = some file) (hcopy : file.failAfter = none) :
    (handleFileServer env (slash :: name)).body = file.content ∧
      (handleFileServer env (slash :: name)).status = 200 ∧
      (handleFileServer env (slash :: name)).header.lookup "Content-Type" =
        some (goStr "application/octet-stream") ∧
      (handleFileServer env (slash :: name)).header.lookup "Content-Disposition" =
        some (goStr "attachment; filename=" ++ name) := by
  have hb : Base (localPathOf (slash :: name)) = name := Base_localPathOf hname []
  have hl : localPathOf (slash :: name) = name := localPathOf_root hname
  have h := handleFileServer_of_file env (slash :: name) info file (by rw [hb]; exact hself)
    (by rw [hl]; exact hstat) hreg (by rw [hl]; exact hopen) hcopy
  rw [h, hb]
  exact ⟨rfl, rfl, rfl, rfl⟩

/-- Witness of C5, amended: `readme.txt` of `rootEnv`. -/
theorem handleFileServer_download_witness :
    (handleFileServer rootEnv (goStr "/readme.txt")).body = goStr "hello" ∧
      (handleFileServer rootEnv (goStr "/readme.txt")).status = 200 ∧
      (handleFileServer rootEnv (goStr "/readme.txt")).header.lookup "Content-Type" =
        some (goStr "application/octet-stream") ∧
      (handleFileServer rootEnv (goStr "/readme.txt")).header.lookup "Content-Disposition" =
        some (goStr "attachment; filename=" ++ goStr "readme.txt") :=
  handleFileServer_download rootEnv (goStr "readme.txt")
    { name := goStr "readme.txt", size := 5, modTime := 0, isDir := false }
    { content := goStr "hello", failAfter := none, entries := none }
    (by decide) (by decide) rfl rfl rfl rfl

/-- The path of a row never contains a backslash. -/
theorem listFiles_path_no_backslash (env : Env) (urlPath execName : GoString)
    (fileInfos : List OsFileInfo) (row : FileInfo)
    (hrow : row ∈ listFiles env urlPath execName fileInfos) : backslash ∉ row.Path := by
  obtain ⟨info, -, -, rfl⟩ := mem_listFiles hrow
  exact ReplaceByte_not_mem _ _ _ (by decide)

/-- Where neither the parent URL path nor the name contains a backslash, the
path of a row is their join: only a backslash in one of them makes the two
differ. -/
theorem listFiles_path_eq_join (env : Env) (urlPath execName : GoString)
    (fileInfos : List OsFileInfo) (row : FileInfo)
    (hrow : row ∈ listFiles env urlPath execName fileInfos)
    (hu : backslash ∉ urlPath) (hn : backslash ∉ row.Name) :
    row.Path = Join [urlPath, row.Name] := by
  obtain ⟨info, -, -, rfl⟩ := mem_listFiles hrow
  refine ReplaceByte_of_not_mem _ _ _ (fun hm => ?_)
  rcases mem_Join_pair hm with h | h | h | h
  · exact hu h
  · exact hn h
  · exact absurd h (by decide)
  · exact absurd h (by decide)

/-- C6, the code at the failing input: in a root that holds the regular file
`a\b` the listing of `/` has one row, for `a\b`, whose path is `/a/b` and not
the join `/a\b` of the parent path and the name; a request for the row's path
is answered 404, while the file is served at `/a\b`. -/
theorem listFiles_path_defect :
    (listFiles backslashEnv (goStr "/") (Base backslashEnv.executable) backslashDir).map
        (fun f => (f.Name, f.Path)) = [(goStr "a\\b", goStr "/a/b")] ∧
      Join [goStr "/", goStr "a\\b"] = goStr "/a\\b" ∧
      (handleFileServer backslashEnv (goStr "/a/b")).status = 404 ∧
      handleFileServer backslashEnv (goStr "/a\\b") =
        downloadResponse (goStr "a\\b") (goStr "x") := by
  decide

/-- C7: the normalisation is lexical and does not confine the local path to the
served root: the request path `/../secret.txt` is mapped to `../secret.txt`,
and the handler returns the file stored there. -/
theorem localPathOf_not_confined :
    ∃ urlPath : GoString, HasPrefix urlPath (goStr "/../") = true ∧
      HasPrefix (localPathOf urlPath) (goStr "../") = true ∧
      handleFileServer outsideEnv urlPath =
        downloadResponse (goStr "secret.txt") (goStr "secret") :=
  ⟨goStr "/../secret.txt", by decide, by decide, by decide⟩

/-- Counterexample to C8 as stated: a directory for which the file system
reports 4096 bytes has a row of size 4096. -/
theorem directory_size_counterexample :
    ¬ ∀ (env : Env) (urlPath execName : GoString) (fileInfos : List OsFileInfo)
        (row : FileInfo), row ∈ listFiles env urlPath execName fileInfos →
      row.IsDir = true → row.Size = 0 := by
  intro h
  have h1 := h rootEnv (goStr "/") (goStr "server.bin") scenarioDir
    { Name := goStr "docs", Size := 4096, ModTime := [], IsDir := true, Path := goStr "/docs" }
    (by decide) rfl
  exact absurd h1 (by decide)

/-- C8, amended: every row, of a directory as of a file, carries the size the
file system reports for the entry it was built from. -/
theorem listFiles_size (env : Env) (urlPath execName : GoString)
    (fileInfos : List OsFileInfo) (row : FileInfo)
    (hrow : row ∈ listFiles env urlPath execName fileInfos) :
    ∃ info ∈ fileInfos, row.Name = info.name ∧ row.IsDir = info.isDir ∧
      row.Size = info.size := by
  obtain ⟨info, hm, -, rfl⟩ := mem_listFiles hrow
  exact ⟨info, hm, rfl, rfl, rfl⟩

/-- Witness of C8, amended: the row of the directory `docs`. -/
theorem listFiles_size_witness :
    ∃ info ∈ scenarioDir, goStr "docs" = info.name ∧ true = info.isDir ∧
      (4096 : Int) = info.size :=
  listFiles_size rootEnv (goStr "/") (goStr "server.bin") scenarioDir
    { Name := goStr "docs", Size := 4096, ModTime := [], IsDir := true, Path := goStr "/docs" }
    (by decide)

/-- C9: `getLocalIP` returns the text of the first address of the list that is a
non-loopback IPv4 network address, and `localhost` when the list holds none or
the enumeration fails. -/
theorem getLocalIP_spec (text6 : List Nat → GoString) (addrs : Option (List Addr)) :
    getLocalIP text6 addrs = firstLanAddress text6 addrs := by
  cases addrs with
  | none => rfl
  | some l => exact getLocalIPLoop_eq text6 l

/-- Counterexample to C10 as stated: the hidden regular file `.env` of
`lockedEnv` exists and cannot be opened; the request for it is answered 500. -/
theorem hidden_file_counterexample :
    ¬ ∀ (env : Env) (pre name : GoString) (info : OsFileInfo), IsFileName name →
      HasPrefix name (goStr ".") = true → name ≠ Base env.executable →
      env.stat (localPathOf (pre ++ slash :: name)) = some info → info.isDir = false →
      (handleFileServer env (pre ++ slash :: name)).status = 200 := by
  intro h
  have h1 := h lockedEnv [] (goStr ".env")
    { name := goStr ".env", size := 5, modTime := 0, isDir := false }
    (by decide) (by decide) (by decide) rfl rfl
  revert h1
  decide

/-- C10, amended: the hidden-entry filter applies to listings only: a request
whose final segment is a file name starting with `.`, other than the
executable's name, for an existing regular file that is opened and copied
without error is answered with the file as a download, although no listing
has a row of that name. -/
theorem handleFileServer_hidden_file (env : Env) (pre name : GoString) (info : OsFileInfo)
    (file : OsFile) (hname : IsFileName name) (hhidden : HasPrefix name (goStr ".") = true)
    (hself : name ≠ Base env.executable)
    (hstat : env.stat (localPathOf (pre ++ slash :: name)) = some info)
    (hreg : info.isDir = false)
    (hopen : env.openFile (localPathOf (pre ++ slash :: name)) = some file)
    (hcopy : file.failAfter = none) :
    handleFileServer env (pre ++ slash :: name) = downloadResponse name file.content ∧
      ∀ (urlPath : GoString) (fileInfos : List OsFileInfo),
        name ∉ (listFiles env urlPath (Base env.executable) fileInfos).map FileInfo.Name := by
  have hb : Base (localPathOf (pre ++ slash :: name)) = name := Base_localPathOf hname pre
  have h := handleFileServer_of_file env (pre ++ slash :: name) info file
    (by rw [hb]; exact hself) hstat hreg hopen hcopy
  refine ⟨by rw [h, hb], ?_⟩
  intro urlPath fileInfos hm
  obtain ⟨row, hrow, hn⟩ := List.mem_map.mp hm
  obtain ⟨i, -, hl, rfl⟩ := mem_listFiles hrow
  have hi : i.name = name := hn
  rw [isListed, hi, hhidden] at hl
  simp at hl

/-- Witness of C10, amended: the hidden file `.env` of `rootEnv`. -/
theorem handleFileServer_hidden_file_witness :
    HasPrefix (goStr ".env") (goStr ".") = true ∧
      handleFileServer rootEnv ([] ++ slash :: goStr ".env") =
        downloadResponse (goStr ".env") (goStr "KEY=1") :=
  ⟨by decide, (handleFileServer_hidden_file rootEnv [] (goStr ".env")
    { name := goStr ".env", size := 5, modTime := 0, isDir := false }
    { content := goStr "KEY=1", failAfter := none, entries := none }
    (by decide) (by decide) (by decide) rfl rfl rfl rfl).1⟩

end Dirs
